import Mathlib

/-!
Shallow embedding of the sliding-window inference controller of
FamilyVideoSplitter (`src/inference/transnetv2.py`): the window generator
with boundary padding, the core-slice stitcher, the streaming boundary
emitter, and the offline scene extractor, together with proofs of the
specification claims about them.

Frames are abstract values of an inhabited type `F`; the external scoring
model is a function from a window (a list of frames) to the two per-frame
score lists (`single_frame_pred`, `all_frames_pred`), with rational scores.
The Kafka producer is reified: every `emit_topic` call is recorded as a
`SceneEvent` in an output list, in emission order.
-/

namespace FVS

/-- Detection threshold, `thresh = 0.75` at module level in the source
(written as the rational `3/4` in lowest terms). -/
def thresh : ℚ := mkRat 3 4

/-- The event record built in `emit_topic`, with keys
`video`, `start`, `end`, `score`, `index`. -/
structure SceneEvent where
  video : String
  start_frame : Nat
  end_frame : Nat
  score : ℚ
  index : Nat
deriving DecidableEq

/-- The mutable attributes of class `TransNetV2` that the emitter reads and
writes: `prev_scene`, `video_path`, `max_frame`, `scene_number`. -/
structure EmitterState where
  prev_scene : Nat
  video_path : String
  max_frame : Nat
  scene_number : Nat
deriving DecidableEq

/-- Class-attribute initial values of `TransNetV2`:
`prev_scene = 0`, `video_path = ""`, `max_frame = 0`, `scene_number = 1`. -/
def initialState : EmitterState :=
  { prev_scene := 0, video_path := "", max_frame := 0, scene_number := 1 }

/-- `emit_topic`: build the event record from the current state, then
increment `scene_number` and advance `prev_scene` to `cur_frame + 1`. -/
def emit_topic (st : EmitterState) (cur_frame : Nat) (score : ℚ) :
    EmitterState × SceneEvent :=
  ({ st with scene_number := st.scene_number + 1, prev_scene := cur_frame + 1 },
   { video := st.video_path, start_frame := st.prev_scene, end_frame := cur_frame,
     score := score, index := st.scene_number })

/-- Thread `emit_topic` through a list of `(cur_frame, score)` emissions,
collecting the emitted events in order. -/
def emitRun (st : EmitterState) : List (Nat × ℚ) → EmitterState × List SceneEvent
  | [] => (st, [])
  | e :: rest =>
    let r := emit_topic st e.1 e.2
    let r2 := emitRun r.1 rest
    (r2.1, r.2 :: r2.2)

/-- The emissions of `np.where(predictions > thresh)`: positions strictly
above `thresh`, in increasing index order, shifted by `gap`, paired with
their scores. -/
def crossings (gap : Nat) (predictions : List ℚ) : List (Nat × ℚ) :=
  (predictions.enum.filter (fun it => thresh < it.2)).map
    (fun it => (gap + it.1, it.2))

/-- `find_frames_crossing_threshold`: emit one event per frame whose score
crosses the threshold, in increasing index order. -/
def find_frames_crossing_threshold (st : EmitterState) (gap : Nat)
    (predictions : List ℚ) : EmitterState × List SceneEvent :=
  emitRun st (crossings gap predictions)

/-- Every emitter state reached while running a list of emissions, the
initial and the final state included. -/
def emitStates (st : EmitterState) : List (Nat × ℚ) → List EmitterState
  | [] => [st]
  | e :: rest => st :: emitStates (emit_topic st e.1 e.2).1 rest

variable {F : Type} [Inhabited F]

/-- Tail padding count of `input_iterator`:
`25 + 50 - (len(frames) % 50 if len(frames) % 50 != 0 else 50)`. -/
def no_padded_frames_end (n : Nat) : Nat :=
  25 + 50 - (if n % 50 ≠ 0 then n % 50 else 50)

/-- The padded sequence of `input_iterator`: 25 copies of the first frame,
the frames themselves, then `no_padded_frames_end` copies of the last frame. -/
def padded_inputs (frames : List F) : List F :=
  List.replicate 25 frames.headI ++ frames ++
    List.replicate (no_padded_frames_end frames.length) frames.getLastI

/-- The window loop
`while ptr + 100 <= len(padded): yield padded[ptr:ptr+100]; ptr += 50`,
written with a structural fuel, one unit per iteration; `padded.length`
units are always enough. -/
def windowsGo (padded : List F) : Nat → Nat → List (List F)
  | _, 0 => []
  | ptr, fuel + 1 =>
    if ptr + 100 ≤ padded.length then
      ((padded.drop ptr).take 100) :: windowsGo padded (ptr + 50) fuel
    else []

/-- `input_iterator`: all full 100-frame windows of the padded sequence at
stride 50. -/
def input_iterator (frames : List F) : List (List F) :=
  windowsGo (padded_inputs frames) 0 (padded_inputs frames).length

/-- Core slice `[25:75)` of the two per-frame score lists of one window. -/
def coreOf (model : List F → List ℚ × List ℚ) (w : List F) : List ℚ × List ℚ :=
  (((model w).1.drop 25).take 50, ((model w).2.drop 25).take 50)

/-- One iteration of the `predict_frames` loop: score a window, stream the
thresholded core slice with `gap = len(predictions) * 50`, and append the two
core slices to the stitching accumulator. -/
def predict_step (model : List F → List ℚ × List ℚ)
    (acc : (EmitterState × List SceneEvent) × List (List ℚ × List ℚ))
    (w : List F) :
    (EmitterState × List SceneEvent) × List (List ℚ × List ℚ) :=
  let single := ((model w).1.drop 25).take 50
  let many := ((model w).2.drop 25).take 50
  let r := find_frames_crossing_threshold acc.1.1 (acc.2.length * 50) single
  ((r.1, acc.1.2 ++ r.2), acc.2 ++ [(single, many)])

/-- `predict_frames`: set `max_frame = len(frames)`, run the window loop,
emit the final synthetic event at `max_frame + 1` with score 1, and return
the final state, the emitted events, and both stitched prediction sequences
trimmed to the true frame count. -/
def predict_frames (model : List F → List ℚ × List ℚ) (st0 : EmitterState)
    (frames : List F) : EmitterState × List SceneEvent × List ℚ × List ℚ :=
  let st1 := { st0 with max_frame := frames.length }
  let res := (input_iterator frames).foldl (predict_step model) ((st1, []), [])
  let fin := emit_topic res.1.1 (res.1.1.max_frame + 1) 1
  (fin.1, res.1.2 ++ [fin.2],
   (res.2.map Prod.fst).flatten.take frames.length,
   (res.2.map Prod.snd).flatten.take frames.length)

/-- The `(cur_frame, score)` emissions contributed by a list of windows,
the first of which has window index `k0`. -/
def window_emissions (model : List F → List ℚ × List ℚ) :
    List (List F) → Nat → List (Nat × ℚ)
  | [], _ => []
  | w :: rest, k0 =>
      crossings (k0 * 50) (coreOf model w).1 ++ window_emissions model rest (k0 + 1)

/-- All emissions of one `predict_frames` call: the window emissions followed
by the final synthetic emission `(len(frames) + 1, 1)`. -/
def all_emissions (model : List F → List ℚ × List ℚ) (frames : List F) :
    List (Nat × ℚ) :=
  window_emissions model (input_iterator frames) 0 ++ [(frames.length + 1, 1)]

/-- One iteration of the `predictions_to_scenes` scan. The loop state is
`(t_prev, start, scenes)`, the input `(i, t)`; a 1-to-0 transition opens a
scene at `i`, a 0-to-1 transition away from index 0 closes `[start, i]`. -/
def sceneStep (st : Nat × Nat × List (Nat × Nat)) (it : Nat × Nat) :
    Nat × Nat × List (Nat × Nat) :=
  let start1 := if st.1 = 1 ∧ it.2 = 0 then it.1 else st.2.1
  let scenes1 :=
    if st.1 = 0 ∧ it.2 = 1 ∧ it.1 ≠ 0 then st.2.2 ++ [(start1, it.1)] else st.2.2
  (it.2, start1, scenes1)

/-- `predictions_to_scenes` on an already binarized sequence: the enumerate
scan, the closing append when the last value is 0, and the all-ones fallback
`[[0, len - 1]]` (with `len - 1` a signed integer, as in `numpy`). -/
def predictions_to_scenes_bin (bs : List Nat) : List (Int × Int) :=
  let out := bs.enum.foldl sceneStep (0, 0, [])
  let scenes :=
    if bs.getLast? = some 0 then out.2.2 ++ [(out.2.1, bs.length - 1)] else out.2.2
  if scenes = [] then [((0 : Int), (bs.length : Int) - 1)]
  else scenes.map (fun p => ((p.1 : Int), (p.2 : Int)))

/-- `predictions_to_scenes`: binarize by `predictions > threshold`
(`uint8` cast in the source), then scan. -/
def predictions_to_scenes (predictions : List ℚ) (threshold : ℚ) :
    List (Int × Int) :=
  predictions_to_scenes_bin (predictions.map (fun p => if threshold < p then 1 else 0))

/-- A kernel-reducible decision procedure for `List.Chain'`. -/
def chainDecide {α : Type} (r : α → α → Prop) [DecidableRel r] :
    (l : List α) → Decidable (List.Chain' r l)
  | [] => isTrue List.chain'_nil
  | [a] => isTrue (List.chain'_singleton a)
  | a :: b :: rest =>
    haveI := chainDecide r (b :: rest)
    decidable_of_iff (r a b ∧ List.Chain' r (b :: rest)) List.chain'_cons.symm

/-- Interval adjacency: the next interval starts right after the previous
one ends. -/
def adjacent (a b : Int × Int) : Prop := b.1 = a.2 + 1

instance : DecidableRel adjacent :=
  fun a b => inferInstanceAs (Decidable (b.1 = a.2 + 1))

instance (priority := 1100) (l : List (Int × Int)) :
    Decidable (List.Chain' adjacent l) :=
  chainDecide adjacent l

/-- The interval list partitions `0 .. N-1`: it starts at 0, ends at
`N - 1`, every interval is nonempty, and consecutive intervals are adjacent;
together these say the intervals cover `0 .. N-1` in order with no gaps and
no overlaps. -/
def isPartition (ivs : List (Int × Int)) (N : Nat) : Prop :=
  ivs.head?.map Prod.fst = some 0 ∧
  ivs.getLast?.map Prod.snd = some ((N : Int) - 1) ∧
  (∀ iv ∈ ivs, iv.1 ≤ iv.2) ∧
  List.Chain' adjacent ivs

instance (ivs : List (Int × Int)) (N : Nat) : Decidable (isPartition ivs N) :=
  inferInstanceAs (Decidable (_ ∧ _ ∧ _ ∧ _))

/-- Natural-number interval adjacency, used inside the scan invariant. -/
def adjacentN (a b : Nat × Nat) : Prop := b.1 = a.2 + 1

instance : DecidableRel adjacentN :=
  fun a b => inferInstanceAs (Decidable (b.1 = a.2 + 1))

instance (priority := 1100) (l : List (Nat × Nat)) :
    Decidable (List.Chain' adjacentN l) :=
  chainDecide adjacentN l

/-- Natural-number version of `isPartition`, for the scan invariant. -/
def isPartN (ivs : List (Nat × Nat)) (N : Nat) : Prop :=
  1 ≤ N ∧
  ivs.head?.map Prod.fst = some 0 ∧
  ivs.getLast?.map Prod.snd = some (N - 1) ∧
  (∀ iv ∈ ivs, iv.1 ≤ iv.2) ∧
  List.Chain' adjacentN ivs

instance (ivs : List (Nat × Nat)) (N : Nat) : Decidable (isPartN ivs N) :=
  inferInstanceAs (Decidable (_ ∧ _ ∧ _ ∧ _ ∧ _))

/-- Invariant of the `predictions_to_scenes` scan after `m ≥ 1` processed
entries with state `st = (t_prev, start, scenes)`: if the last entry was 0,
closing the open scene at `m - 1` yields a partition of `0..m-1`; if it was
1, the recorded scenes already partition `0..m-1`. -/
def ScanInv (m : Nat) (st : Nat × Nat × List (Nat × Nat)) : Prop :=
  (st.1 = 0 → isPartN (st.2.2 ++ [(st.2.1, m - 1)]) m) ∧
  (st.1 = 1 → isPartN st.2.2 m)

instance : DecidableRel (fun a b : Nat => ¬(a = 1 ∧ b = 1)) :=
  fun a b => inferInstanceAs (Decidable ¬(a = 1 ∧ b = 1))

instance (priority := 1100) (l : List Nat) :
    Decidable (List.Chain' (fun a b : Nat => ¬(a = 1 ∧ b = 1)) l) :=
  chainDecide _ l

/-- A concrete scoring stub: every window yields 100 zero scores on both
outputs (all below threshold). -/
def zeroModel : List Unit → List ℚ × List ℚ :=
  fun _ => (List.replicate 100 0, List.replicate 100 0)

/-- A concrete contract-violating scoring stub: only 30 scores per window. -/
def shortModel : List Unit → List ℚ × List ℚ :=
  fun _ => (List.replicate 30 0, List.replicate 30 0)

/-- A concrete contract-violating scoring stub: 80 scores per window. -/
def model80 : List Unit → List ℚ × List ℚ :=
  fun _ => (List.replicate 80 0, List.replicate 80 0)

/-! ### Emitter lemmas -/

lemma emitRun_append (a : List (Nat × ℚ)) :
    ∀ (st : EmitterState) (b : List (Nat × ℚ)),
      emitRun st (a ++ b) =
        ((emitRun (emitRun st a).1 b).1,
         (emitRun st a).2 ++ (emitRun (emitRun st a).1 b).2) := by
  induction a with
  | nil => intro st b; simp [emitRun]
  | cons e rest ih => intro st b; simp [emitRun, ih]

lemma emitRun_singleton (st : EmitterState) (c : Nat) (p : ℚ) :
    emitRun st [(c, p)] = ((emit_topic st c p).1, [(emit_topic st c p).2]) := rfl

lemma emitRun_length (l : List (Nat × ℚ)) :
    ∀ st : EmitterState, (emitRun st l).2.length = l.length := by
  induction l with
  | nil => intro st; rfl
  | cons e rest ih => intro st; simp [emitRun, ih]

lemma emitRun_max_frame (l : List (Nat × ℚ)) :
    ∀ st : EmitterState, (emitRun st l).1.max_frame = st.max_frame := by
  induction l with
  | nil => intro st; rfl
  | cons e rest ih => intro st; simp [emitRun, ih, emit_topic]

lemma emitRun_video_path (l : List (Nat × ℚ)) :
    ∀ st : EmitterState, (emitRun st l).1.video_path = st.video_path := by
  induction l with
  | nil => intro st; rfl
  | cons e rest ih => intro st; simp [emitRun, ih, emit_topic]

/-- The event list of any emission run is chained: each event starts one
frame after the previous one ends and carries the next scene index, and the
first event starts at the initial cursor with the initial counter. -/
lemma emitRun_chain (l : List (Nat × ℚ)) :
    ∀ st : EmitterState,
      List.Chain'
        (fun a b : SceneEvent =>
          b.start_frame = a.end_frame + 1 ∧ b.index = a.index + 1)
        (emitRun st l).2 ∧
      ∀ e ∈ (emitRun st l).2.head?,
        e.start_frame = st.prev_scene ∧ e.index = st.scene_number := by
  induction l with
  | nil => intro st; constructor <;> simp [emitRun]
  | cons x rest ih =>
    intro st
    have h := ih (emit_topic st x.1 x.2).1
    constructor
    · show List.Chain' _ ((emit_topic st x.1 x.2).2 :: _)
      rcases hrest : (emitRun (emit_topic st x.1 x.2).1 rest).2 with _ | ⟨e2, tl⟩
      · simp
      · refine List.chain'_cons.mpr ⟨?_, ?_⟩
        · have h2 := h.2 e2 (by rw [hrest]; rfl)
          exact ⟨by simp [h2.1, emit_topic], by simp [h2.2, emit_topic]⟩
        · have := h.1; rwa [hrest] at this
    · intro e he
      simp only [emitRun, List.head?_cons, Option.mem_def, Option.some.injEq] at he
      subst he
      exact ⟨rfl, rfl⟩

/-- The final cursor after a run ending in emission `(c, p)` is `c + 1`. -/
lemma emitRun_concat_prev (st : EmitterState) (l : List (Nat × ℚ)) (c : Nat) (p : ℚ) :
    (emitRun st (l ++ [(c, p)])).1.prev_scene = c + 1 := by
  rw [emitRun_append]
  simp [emitRun, emit_topic]

/-- If every emission's frame stays below a bound, so does the cursor in
every reached state. -/
lemma emitStates_bound (l : List (Nat × ℚ)) :
    ∀ (st : EmitterState) (B : Nat), st.prev_scene ≤ B →
      (∀ e ∈ l, e.1 + 1 ≤ B) →
      ∀ s ∈ emitStates st l, s.prev_scene ≤ B := by
  induction l with
  | nil =>
    intro st B hst _ s hs
    simp only [emitStates, List.mem_singleton] at hs
    simpa [hs] using hst
  | cons e rest ih =>
    intro st B hst hl s hs
    simp only [emitStates, List.mem_cons] at hs
    rcases hs with rfl | hs
    · exact hst
    · refine ih _ B ?_ (fun x hx => hl x (List.mem_cons_of_mem _ hx)) s hs
      simpa [emit_topic] using hl e (List.mem_cons_self _ _)

/-! ### Window generator lemmas -/

lemma windowsGo_succ (p : List F) (ptr fuel : Nat) :
    windowsGo p ptr (fuel + 1) =
      if ptr + 100 ≤ p.length then
        ((p.drop ptr).take 100) :: windowsGo p (ptr + 50) fuel
      else [] := rfl

lemma windowsGo_length (p : List F) :
    ∀ (fuel ptr : Nat), p.length ≤ ptr + 50 * fuel + 50 →
      (windowsGo p ptr fuel).length =
        if ptr + 100 ≤ p.length then (p.length - ptr - 100) / 50 + 1 else 0 := by
  intro fuel
  induction fuel with
  | zero =>
    intro ptr hfuel
    rw [if_neg (by omega)]
    rfl
  | succ fuel ih =>
    intro ptr hfuel
    rw [windowsGo_succ]
    by_cases h : ptr + 100 ≤ p.length
    · rw [if_pos h, if_pos h, List.length_cons, ih (ptr + 50) (by omega)]
      by_cases h2 : ptr + 50 + 100 ≤ p.length
      · rw [if_pos h2]; omega
      · rw [if_neg h2]; omega
    · rw [if_neg h, if_neg h]
      rfl

lemma windowsGo_mem (p : List F) :
    ∀ (fuel ptr : Nat) (w : List F), w ∈ windowsGo p ptr fuel → w.length = 100 := by
  intro fuel
  induction fuel with
  | zero => intro ptr w hw; cases hw
  | succ fuel ih =>
    intro ptr w hw
    rw [windowsGo_succ] at hw
    by_cases h : ptr + 100 ≤ p.length
    · rw [if_pos h] at hw
      rcases List.mem_cons.mp hw with rfl | hw
      · simp [List.length_take, List.length_drop]; omega
      · exact ih (ptr + 50) w hw
    · rw [if_neg h] at hw
      cases hw

lemma padded_length (frames : List F) :
    (padded_inputs frames).length =
      25 + frames.length + no_padded_frames_end frames.length := by
  simp [padded_inputs]
  omega

/-- Padding arithmetic: the padded sequence admits at least one window, and
the windows' core slices cover all `N` true frames. -/
lemma pad_facts (N : Nat) (h : 1 ≤ N) :
    100 ≤ 25 + N + no_padded_frames_end N ∧
    N ≤ 50 * (((25 + N + no_padded_frames_end N) - 100) / 50 + 1) := by
  unfold no_padded_frames_end
  by_cases h50 : N % 50 = 0 <;> simp [h50] <;> omega

/-- Every window index is small enough that its core slice starts strictly
before frame `N`. -/
lemma pad_windows_bound (N : Nat) (h : 1 ≤ N) :
    ∀ k, k < ((25 + N + no_padded_frames_end N) - 100) / 50 + 1 → 50 * k < N := by
  intro k hk
  unfold no_padded_frames_end at hk
  by_cases h50 : N % 50 = 0 <;> simp [h50] at hk <;> omega

lemma input_iterator_length (frames : List F) (h : 1 ≤ frames.length) :
    (input_iterator frames).length =
      ((padded_inputs frames).length - 100) / 50 + 1 := by
  unfold input_iterator
  rw [windowsGo_length (padded_inputs frames) (padded_inputs frames).length 0 (by omega)]
  rw [if_pos]
  · omega
  · rw [padded_length]
    exact (pad_facts frames.length h).1

lemma input_iterator_mem (frames : List F) (w : List F)
    (hw : w ∈ input_iterator frames) : w.length = 100 :=
  windowsGo_mem _ _ _ _ hw

/-! ### The window loop of `predict_frames`, unrolled -/

/-- The window loop is the emission run over the window emissions, with the
core slices accumulated on the side. -/
lemma foldl_predict_step (model : List F → List ℚ × List ℚ) :
    ∀ (wins : List (List F)) (st : EmitterState) (evs : List SceneEvent)
      (cores : List (List ℚ × List ℚ)),
      wins.foldl (predict_step model) ((st, evs), cores) =
        (((emitRun st (window_emissions model wins cores.length)).1,
          evs ++ (emitRun st (window_emissions model wins cores.length)).2),
         cores ++ wins.map (coreOf model)) := by
  intro wins
  induction wins with
  | nil => intro st evs cores; simp [window_emissions, emitRun]
  | cons w rest ih =>
    intro st evs cores
    rw [List.foldl_cons]
    show (rest.foldl (predict_step model)
        ((((emitRun st (crossings (cores.length * 50) (coreOf model w).1)).1,
           evs ++ (emitRun st (crossings (cores.length * 50) (coreOf model w).1)).2),
          cores ++ [coreOf model w]))) = _
    rw [ih]
    rw [window_emissions, emitRun_append]
    simp [List.append_assoc, List.length_append]

/-- `predict_frames` in terms of the flat emission list and the per-window
core slices. -/
lemma predict_frames_eq (model : List F → List ℚ × List ℚ)
    (st0 : EmitterState) (frames : List F) :
    predict_frames model st0 frames =
      ((emitRun { st0 with max_frame := frames.length }
          (all_emissions model frames)).1,
       (emitRun { st0 with max_frame := frames.length }
          (all_emissions model frames)).2,
       (((input_iterator frames).map (coreOf model)).map Prod.fst).flatten.take
          frames.length,
       (((input_iterator frames).map (coreOf model)).map Prod.snd).flatten.take
          frames.length) := by
  unfold predict_frames
  dsimp only
  rw [foldl_predict_step model (input_iterator frames)
      { st0 with max_frame := frames.length } [] []]
  simp only [List.length_nil, List.nil_append]
  rw [all_emissions, emitRun_append, emitRun_singleton]
  have hmax : (emitRun { st0 with max_frame := frames.length }
      (window_emissions model (input_iterator frames) 0)).1.max_frame =
      frames.length := by
    rw [emitRun_max_frame]
  rw [hmax]

/-! ### Stitched output length -/

lemma flatten_length_const {α : Type} (g : α → List ℚ) :
    ∀ (l : List α), (∀ x ∈ l, (g x).length = 50) →
      ((l.map g).flatten).length = 50 * l.length := by
  intro l
  induction l with
  | nil => intro _; rfl
  | cons x rest ih =>
    intro h
    simp only [List.map_cons, List.flatten_cons, List.length_append,
      List.length_cons]
    rw [h x (List.mem_cons_self _ _), ih (fun y hy => h y (List.mem_cons_of_mem _ hy))]
    ring

/-- Whenever the model returns at least 75 scores per window, every core
slice has exactly 50 entries and both stitched outputs have exactly `N`
entries. -/
lemma stitched_length (model : List F → List ℚ × List ℚ) (st0 : EmitterState)
    (frames : List F) (hN : 1 ≤ frames.length)
    (hm : ∀ w ∈ input_iterator frames,
        75 ≤ (model w).1.length ∧ 75 ≤ (model w).2.length) :
    (predict_frames model st0 frames).2.2.1.length = frames.length ∧
    (predict_frames model st0 frames).2.2.2.length = frames.length := by
  rw [predict_frames_eq]
  have hwlen : frames.length ≤ 50 * (input_iterator frames).length := by
    rw [input_iterator_length frames hN, padded_length]
    exact (pad_facts frames.length hN).2
  have h1 : ((((input_iterator frames).map (coreOf model)).map Prod.fst).flatten).length =
      50 * (input_iterator frames).length := by
    rw [List.map_map]
    rw [flatten_length_const (Prod.fst ∘ coreOf model) (input_iterator frames)]
    intro w hw
    simp only [Function.comp_apply, coreOf, List.length_take, List.length_drop]
    have := (hm w hw).1
    omega
  have h2 : ((((input_iterator frames).map (coreOf model)).map Prod.snd).flatten).length =
      50 * (input_iterator frames).length := by
    rw [List.map_map]
    rw [flatten_length_const (Prod.snd ∘ coreOf model) (input_iterator frames)]
    intro w hw
    simp only [Function.comp_apply, coreOf, List.length_take, List.length_drop]
    have := (hm w hw).2
    omega
  constructor
  · simp only [List.length_take, h1]
    omega
  · simp only [List.length_take, h2]
    omega

/-! ### Bounds on the emitted frame numbers -/

lemma mem_enumFrom_bound {α : Type} :
    ∀ (l : List α) (n : Nat) (p : Nat × α), p ∈ l.enumFrom n →
      n ≤ p.1 ∧ p.1 < n + l.length := by
  intro l
  induction l with
  | nil => intro n p hp; cases hp
  | cons x rest ih =>
    intro n p hp
    rw [List.enumFrom_cons] at hp
    rcases List.mem_cons.mp hp with rfl | hp
    · simp
    · have := ih (n + 1) p hp
      constructor <;> [omega; (simp only [List.length_cons]; omega)]

/-- Every crossing of a window's core slice points at most 49 frames past
the window's gap. -/
lemma crossings_bound (gap : Nat) (l : List ℚ) (e : Nat × ℚ)
    (he : e ∈ crossings gap l) : e.1 < gap + l.length := by
  unfold crossings at he
  rcases List.mem_map.mp he with ⟨it, hit, rfl⟩
  have := mem_enumFrom_bound l 0 it (List.mem_filter.mp hit).1
  simp only
  omega

/-- Every window emission is attributed to some window index `k` in range,
and points before frame `50 k + 50`. -/
lemma window_emissions_bound (model : List F → List ℚ × List ℚ) :
    ∀ (wins : List (List F)) (k0 : Nat) (e : Nat × ℚ),
      e ∈ window_emissions model wins k0 →
      ∃ k, k0 ≤ k ∧ k < k0 + wins.length ∧ e.1 < 50 * k + 50 := by
  intro wins
  induction wins with
  | nil => intro k0 e he; cases he
  | cons w rest ih =>
    intro k0 e he
    rw [window_emissions] at he
    rcases List.mem_append.mp he with he | he
    · refine ⟨k0, le_refl _, by simp, ?_⟩
      have hb := crossings_bound (k0 * 50) (coreOf model w).1 e he
      have hlen : (coreOf model w).1.length ≤ 50 := by
        simp [coreOf, List.length_take]
      omega
    · rcases ih (k0 + 1) e he with ⟨k, hk1, hk2, hk3⟩
      exact ⟨k, by omega, by simp only [List.length_cons]; omega, hk3⟩

/-- Every emission of a `predict_frames` run on `N ≥ 1` frames points at
most at frame `N + 48`. -/
lemma all_emissions_bound (model : List F → List ℚ × List ℚ)
    (frames : List F) (hN : 1 ≤ frames.length) :
    ∀ e ∈ all_emissions model frames, e.1 + 1 ≤ frames.length + 49 := by
  intro e he
  rw [all_emissions] at he
  rcases List.mem_append.mp he with he | he
  · rcases window_emissions_bound model (input_iterator frames) 0 e he with
      ⟨k, _, hk2, hk3⟩
    rw [input_iterator_length frames hN, padded_length] at hk2
    have := pad_windows_bound frames.length hN k (by omega)
    omega
  · rcases List.mem_singleton.mp he with rfl
    simp only
    omega

/-! ### Scene extractor: partition lemmas -/

lemma isPartN_ne_nil (s : List (Nat × Nat)) (N : Nat) (h : isPartN s N) :
    s ≠ [] := by
  intro hnil
  rw [hnil] at h
  exact Option.noConfusion h.2.1

/-- Extending the last interval's right end by one extends the partition by
one index. -/
lemma isPartN_extend (s : List (Nat × Nat)) (a m : Nat)
    (h : isPartN (s ++ [(a, m - 1)]) m) : isPartN (s ++ [(a, m)]) (m + 1) := by
  obtain ⟨hm, hhead, hlast, hmem, hchain⟩ := h
  refine ⟨by omega, ?_, ?_, ?_, ?_⟩
  · cases s with
    | nil => simpa using hhead
    | cons y ys => simpa using hhead
  · rw [List.getLast?_concat]
    simp
  · intro iv hiv
    rcases List.mem_append.mp hiv with hiv | hiv
    · exact hmem iv (List.mem_append_left _ hiv)
    · rcases List.mem_singleton.mp hiv with rfl
      have := hmem (a, m - 1) (List.mem_append_right _ (List.mem_singleton_self _))
      simp only at this ⊢
      omega
  · rw [List.chain'_append] at hchain ⊢
    refine ⟨hchain.1, List.chain'_singleton _, ?_⟩
    intro x hx y hy
    rcases List.head?_eq_head (l := [((a : Nat), m)]) (by simp) ▸ hy with hy
    simp only [List.head_cons, Option.mem_def, Option.some.injEq] at hy
    subst hy
    have := hchain.2.2 x hx ((a, m - 1)) (by simp)
    simpa [adjacent, adjacentN] using this

/-- Appending the unit interval `[m, m]` to a partition of `0..m-1` gives a
partition of `0..m`. -/
lemma isPartN_snoc (s : List (Nat × Nat)) (m : Nat) (h : isPartN s m) :
    isPartN (s ++ [(m, m)]) (m + 1) := by
  obtain ⟨hm, hhead, hlast, hmem, hchain⟩ := h
  have hs : s ≠ [] := by
    intro hnil; rw [hnil] at hhead; exact Option.noConfusion hhead
  refine ⟨by omega, ?_, ?_, ?_, ?_⟩
  · rw [List.head?_append_of_ne_nil _ hs]
    exact hhead
  · rw [List.getLast?_concat]
    simp
  · intro iv hiv
    rcases List.mem_append.mp hiv with hiv | hiv
    · exact hmem iv hiv
    · rcases List.mem_singleton.mp hiv with rfl
      exact le_refl _
  · rw [List.chain'_append]
    refine ⟨hchain, List.chain'_singleton _, ?_⟩
    intro x hx y hy
    simp only [List.head?_cons, Option.mem_def, Option.some.injEq] at hy
    subst hy
    have hx2 : x.2 = m - 1 := by
      rcases hgl : s.getLast? with _ | z
      · rw [hgl] at hx; cases hx
      · rw [hgl] at hx hlast
        have hz : z = x := by simpa using hx
        subst hz
        simpa using hlast
    show (m : Nat) = x.2 + 1
    omega

lemma sceneStep_eval (tp start : Nat) (scenes : List (Nat × Nat)) (i t : Nat) :
    sceneStep (tp, start, scenes) (i, t) =
      (t, if tp = 1 ∧ t = 0 then i else start,
       if tp = 0 ∧ t = 1 ∧ i ≠ 0 then
         scenes ++ [(if tp = 1 ∧ t = 0 then i else start, i)]
       else scenes) := rfl

/-- The scan preserves `ScanInv` along any tail whose entries are binary and
never put two 1s in a row, and its final `t_prev` is the last entry. -/
lemma scan_partition :
    ∀ (rest : List Nat) (m : Nat) (st : Nat × Nat × List (Nat × Nat)),
      1 ≤ m → (∀ x ∈ rest, x ≤ 1) →
      List.Chain' (fun a b => ¬(a = 1 ∧ b = 1)) (st.1 :: rest) →
      st.1 ≤ 1 → ScanInv m st →
      ((List.enumFrom m rest).foldl sceneStep st).1 = rest.getLastD st.1 ∧
      ScanInv (m + rest.length) ((List.enumFrom m rest).foldl sceneStep st) := by
  intro rest
  induction rest with
  | nil =>
    intro m st hm _ _ _ hinv
    constructor
    · simp [List.enumFrom]
    · simpa [List.enumFrom] using hinv
  | cons t rest' ih =>
    intro m st hm hx hchain hst hinv
    obtain ⟨tp, start, scenes⟩ := st
    simp only at hchain hst hinv
    have ht : t ≤ 1 := hx t (List.mem_cons_self _ _)
    have hchain1 : ¬(tp = 1 ∧ t = 1) := (List.chain'_cons.mp hchain).1
    have hchain2 : List.Chain' (fun a b => ¬(a = 1 ∧ b = 1)) (t :: rest') :=
      (List.chain'_cons.mp hchain).2
    have hm0 : m ≠ 0 := by omega
    rw [List.enumFrom_cons, List.foldl_cons]
    have hlen : m + (t :: rest').length = (m + 1) + rest'.length := by
      simp only [List.length_cons]; omega
    have hlast : (t :: rest').getLastD tp = rest'.getLastD t :=
      List.getLastD_cons tp t rest'
    have hstep : ScanInv (m + 1) (sceneStep (tp, start, scenes) (m, t)) := by
      rw [sceneStep_eval]
      rcases Nat.le_one_iff_eq_zero_or_eq_one.mp hst with rfl | rfl
      · rcases Nat.le_one_iff_eq_zero_or_eq_one.mp ht with rfl | rfl
        · simp only [ScanInv]
          constructor
          · intro _
            have h0 := hinv.1 rfl
            have := isPartN_extend scenes start m h0
            simpa [hm0] using this
          · intro h; exact absurd h (by simp)
        · simp only [ScanInv]
          constructor
          · intro h; exact absurd h (by simp)
          · intro _
            have h0 := hinv.1 rfl
            have := isPartN_extend scenes start m h0
            simpa [hm0] using this
      · rcases Nat.le_one_iff_eq_zero_or_eq_one.mp ht with rfl | rfl
        · simp only [ScanInv]
          constructor
          · intro _
            have h1 := hinv.2 rfl
            have := isPartN_snoc scenes m h1
            simpa [hm0] using this
          · intro h; exact absurd h (by simp)
        · exact absurd ⟨rfl, rfl⟩ hchain1
    have hst' : (sceneStep (tp, start, scenes) (m, t)).1 = t := rfl
    have := ih (m + 1) (sceneStep (tp, start, scenes) (m, t)) (by omega)
      (fun x hxm => hx x (List.mem_cons_of_mem _ hxm))
      (by rw [hst']; exact hchain2) (by rw [hst']; exact ht) hstep
    rw [hlen, hlast]
    rw [hst'] at this
    exact this

lemma getLast?_cons_getLastD {α : Type} :
    ∀ (l : List α) (a : α), (a :: l).getLast? = some (l.getLastD a) := by
  intro l
  induction l with
  | nil => intro a; rfl
  | cons b l ih =>
    intro a
    rw [List.getLast?_cons_cons, ih b, List.getLastD_cons]

/-- Casting a natural-number partition to integer intervals yields an
`isPartition`. -/
lemma isPartN_toInt (s : List (Nat × Nat)) (N : Nat) (h : isPartN s N) :
    isPartition (s.map (fun p => ((p.1 : Int), (p.2 : Int)))) N := by
  obtain ⟨hN, hhead, hlast, hmem, hchain⟩ := h
  refine ⟨?_, ?_, ?_, ?_⟩
  · rw [List.head?_map]
    rcases hh : s.head? with _ | y
    · rw [hh] at hhead; cases hhead
    · rw [hh] at hhead
      simp only [Option.map_some', Option.some.injEq] at hhead ⊢
      omega
  · rw [List.getLast?_map]
    rcases hh : s.getLast? with _ | y
    · rw [hh] at hlast; cases hlast
    · rw [hh] at hlast
      simp only [Option.map_some', Option.some.injEq] at hlast ⊢
      omega
  · intro iv hiv
    rcases List.mem_map.mp hiv with ⟨p, hp, rfl⟩
    have := hmem p hp
    simp only
    omega
  · rw [List.chain'_map]
    refine hchain.imp ?_
    intro a b hab
    show ((b.1 : Nat) : Int) = ((a.2 : Nat) : Int) + 1
    rw [show (b.1 : Nat) = (a.2 : Nat) + 1 from hab]
    push_cast
    ring

/-! ### Claims -/

/-- C1: for every frame sequence of length `N ≥ 1` and a scoring model that
honours the 100-per-window output contract, both stitched prediction
sequences returned by `predict_frames` have exactly `N` entries, regardless
of padding arithmetic and window count. -/
theorem claim_C1_stitched_length (model : List F → List ℚ × List ℚ)
    (st0 : EmitterState) (frames : List F) (hN : 1 ≤ frames.length)
    (hm : ∀ w : List F, w.length = 100 →
        (model w).1.length = 100 ∧ (model w).2.length = 100) :
    (predict_frames model st0 frames).2.2.1.length = frames.length ∧
    (predict_frames model st0 frames).2.2.2.length = frames.length := by
  refine stitched_length model st0 frames hN ?_
  intro w hw
  have := hm w (input_iterator_mem frames w hw)
  omega

/-- C1 witness: a one-frame video with a contract-honouring zero model. -/
theorem claim_C1_witness :
    1 ≤ ([()] : List Unit).length ∧
    ((predict_frames zeroModel initialState [()]).2.2.1.length =
        ([()] : List Unit).length ∧
     (predict_frames zeroModel initialState [()]).2.2.2.length =
        ([()] : List Unit).length) :=
  ⟨by decide, claim_C1_stitched_length zeroModel initialState [()] (by decide)
    (fun w _ => ⟨by simp [zeroModel], by simp [zeroModel]⟩)⟩

/-- C2: after the last window of any video, the emitter unconditionally
emits exactly one additional `SceneEvent`, with `end_frame = max_frame + 1`
(where `max_frame` is the frame count) and score 1 — whatever the scores. -/
theorem claim_C2_final_event (model : List F → List ℚ × List ℚ)
    (st0 : EmitterState) (frames : List F) :
    ∃ e : SceneEvent,
      (predict_frames model st0 frames).2.1.getLast? = some e ∧
      e.end_frame = frames.length + 1 ∧ e.score = 1 ∧
      (predict_frames model st0 frames).2.1.length =
        (window_emissions model (input_iterator frames) 0).length + 1 := by
  rw [predict_frames_eq]
  simp only
  rw [all_emissions, emitRun_append, emitRun_singleton]
  refine ⟨_, List.getLast?_concat _, rfl, rfl, ?_⟩
  simp [emitRun_length]

set_option maxRecDepth 100000 in
/-- C6 counterexample: on a 1-frame video the final event has
`end_frame = 2 = N + 1`, not `N`. -/
theorem claim_C6_counterexample :
    ((predict_frames zeroModel initialState [()]).2.1.getLast?.map
        SceneEvent.end_frame) = some 2 ∧
    ¬ ((predict_frames zeroModel initialState [()]).2.1.getLast?.map
        SceneEvent.end_frame = some (([()] : List Unit).length)) := by
  decide

/-- C6 (amended): after processing a video of `N` frames, whatever the score
distribution, exactly one final `SceneEvent` closes the stream — the event
list is the window-emission events followed by a single event with
`end_frame = N + 1` (not `N`) and score 1. -/
theorem claim_C6_final_event_amended (model : List F → List ℚ × List ℚ)
    (st0 : EmitterState) (frames : List F) :
    ∃ e : SceneEvent,
      (predict_frames model st0 frames).2.1 =
        (emitRun { st0 with max_frame := frames.length }
          (window_emissions model (input_iterator frames) 0)).2 ++ [e] ∧
      e.end_frame = frames.length + 1 ∧ e.score = 1 := by
  rw [predict_frames_eq]
  simp only
  rw [all_emissions, emitRun_append, emitRun_singleton]
  exact ⟨_, rfl, rfl, rfl⟩

/-- C4: for a video processed from the fresh emitter state
(`prev_scene = 0`, `scene_number = 1`), consecutive events chain —
`start_frame` of event `k+1` is `end_frame` of event `k` plus one and the
scene index increases by exactly one — and the first event has
`start_frame = 0` and index 1. -/
theorem claim_C4_monotonic_cursor (model : List F → List ℚ × List ℚ)
    (st0 : EmitterState) (frames : List F)
    (h0 : st0.prev_scene = 0) (h1 : st0.scene_number = 1) :
    List.Chain' (fun a b : SceneEvent =>
        b.start_frame = a.end_frame + 1 ∧ b.index = a.index + 1)
      (predict_frames model st0 frames).2.1 ∧
    ∃ e, (predict_frames model st0 frames).2.1.head? = some e ∧
      e.start_frame = 0 ∧ e.index = 1 := by
  rw [predict_frames_eq]
  simp only
  have hch := emitRun_chain (all_emissions model frames)
    { st0 with max_frame := frames.length }
  refine ⟨hch.1, ?_⟩
  have hne : (emitRun { st0 with max_frame := frames.length }
      (all_emissions model frames)).2 ≠ [] := by
    intro hnil
    have hl := emitRun_length (all_emissions model frames)
      { st0 with max_frame := frames.length }
    rw [hnil, all_emissions] at hl
    simp at hl
  obtain ⟨e, tl, hev⟩ := List.exists_cons_of_ne_nil hne
  have hhd := hch.2 e (by rw [hev]; rfl)
  exact ⟨e, by rw [hev]; rfl, by simpa [h0] using hhd.1, by simpa [h1] using hhd.2⟩

/-- C4 witness: one-frame video, zero scores, fresh state. -/
theorem claim_C4_witness :
    initialState.prev_scene = 0 ∧ initialState.scene_number = 1 ∧
    (List.Chain' (fun a b : SceneEvent =>
        b.start_frame = a.end_frame + 1 ∧ b.index = a.index + 1)
      (predict_frames zeroModel initialState [()]).2.1 ∧
     ∃ e, (predict_frames zeroModel initialState [()]).2.1.head? = some e ∧
       e.start_frame = 0 ∧ e.index = 1) :=
  ⟨rfl, rfl, claim_C4_monotonic_cursor zeroModel initialState [()] rfl rfl⟩

/-- C5 counterexample: for `N = 50` (so `N % 50 = 0`) the code pads the tail
with 25 copies, not the `25 + 50` the claim states. -/
theorem claim_C5_counterexample :
    no_padded_frames_end 50 = 25 ∧ ¬ no_padded_frames_end 50 = 25 + 50 := by
  decide

/-- C5 (amended): the head padding is always exactly 25 copies of the first
frame; the tail padding is `25 + (50 - N % 50)` copies of the last frame
when `N % 50 ≠ 0`, and 25 copies (not `25 + 50`) when `N % 50 = 0`. -/
theorem claim_C5_padding (frames : List F) (h : 1 ≤ frames.length) :
    padded_inputs frames =
      List.replicate 25 frames.headI ++ frames ++
        List.replicate
          (if frames.length % 50 = 0 then 25
           else 25 + (50 - frames.length % 50))
          frames.getLastI := by
  unfold padded_inputs
  have hcount : no_padded_frames_end frames.length =
      if frames.length % 50 = 0 then 25
      else 25 + (50 - frames.length % 50) := by
    unfold no_padded_frames_end
    by_cases h50 : frames.length % 50 = 0 <;> simp [h50] <;> omega
  rw [hcount]

/-- C5 witness: a one-frame video, whose tail padding has `25 + 49 = 74`
copies. -/
theorem claim_C5_witness :
    1 ≤ ([()] : List Unit).length ∧
    padded_inputs [()] =
      List.replicate 25 (([()] : List Unit).headI) ++ [()] ++
        List.replicate
          (if ([()] : List Unit).length % 50 = 0 then 25
           else 25 + (50 - ([()] : List Unit).length % 50))
          (([()] : List Unit).getLastI) :=
  ⟨by decide, claim_C5_padding [()] (by decide)⟩

set_option maxRecDepth 100000 in
/-- C7 (code bug): the emitter state is never reinitialized between videos —
processing video B (one frame, all scores 0) right after video A on the same
controller yields a first event with `start_frame = 3` and `index = 2`,
while B alone from the fresh state yields `start_frame = 0`, `index = 1`. -/
theorem claim_C7_state_carryover :
    (predict_frames zeroModel
        (predict_frames zeroModel initialState [()]).1 [()]).2.1 =
      [{ video := "", start_frame := 3, end_frame := 2, score := 1, index := 2 }] ∧
    (predict_frames zeroModel initialState [()]).2.1 =
      [{ video := "", start_frame := 0, end_frame := 2, score := 1, index := 1 }] := by
  decide

set_option maxRecDepth 100000 in
/-- C8 counterexample: a scoring function returning 30 (not 100) scores per
window is not rejected — `predict_frames` on a 60-frame video silently
returns a 10-entry stitched sequence instead of failing. -/
theorem claim_C8_counterexample :
    (predict_frames shortModel initialState
        (List.replicate 60 ())).2.2.1.length = 10 ∧
    ¬ (predict_frames shortModel initialState
        (List.replicate 60 ())).2.2.1.length = (List.replicate 60 ()).length := by
  decide

/-- C8 (amended): no output-length validation exists; the adapter slices
indices `[25, 75)` of whatever the scoring function returns, so any model
producing at least 75 scores per window — not only exactly 100 — is accepted
and still yields full-length stitched output. -/
theorem claim_C8_no_length_check (model : List F → List ℚ × List ℚ)
    (st0 : EmitterState) (frames : List F) (hN : 1 ≤ frames.length)
    (hm : ∀ w : List F, w.length = 100 →
        75 ≤ (model w).1.length ∧ 75 ≤ (model w).2.length) :
    (predict_frames model st0 frames).2.2.1.length = frames.length ∧
    (predict_frames model st0 frames).2.2.2.length = frames.length := by
  refine stitched_length model st0 frames hN ?_
  intro w hw
  exact hm w (input_iterator_mem frames w hw)

/-- C8 witness: a model yielding 80 scores per window is processed without
any failure. -/
theorem claim_C8_witness :
    1 ≤ ([()] : List Unit).length ∧
    ((predict_frames model80 initialState [()]).2.2.1.length =
        ([()] : List Unit).length ∧
     (predict_frames model80 initialState [()]).2.2.2.length =
        ([()] : List Unit).length) :=
  ⟨by decide, claim_C8_no_length_check model80 initialState [()] (by decide)
    (fun w _ => ⟨by simp [model80], by simp [model80]⟩)⟩

set_option maxRecDepth 100000 in
/-- C9 counterexample: already on a 1-frame video with all scores below
threshold, the final synthetic emission pushes `prev_scene` to
`N + 2 = 3 > N`. -/
theorem claim_C9_counterexample :
    ¬ (predict_frames zeroModel initialState [()]).1.prev_scene ≤
        ([()] : List Unit).length := by
  decide

/-- C9 (amended): starting from cursor 0, at every state reached during a
run on `N ≥ 1` frames the cursor satisfies
`0 ≤ prev_scene ≤ N + 49` (threshold crossings at tail-padding positions
can push it up to 49 past `N`), and after the final synthetic event it
equals `N + 2`, not at most `N`. -/
theorem claim_C9_cursor_bound (model : List F → List ℚ × List ℚ)
    (st0 : EmitterState) (frames : List F)
    (h0 : st0.prev_scene = 0) (hN : 1 ≤ frames.length) :
    (∀ s ∈ emitStates { st0 with max_frame := frames.length }
        (all_emissions model frames),
      s.prev_scene ≤ frames.length + 49) ∧
    (predict_frames model st0 frames).1.prev_scene = frames.length + 2 := by
  constructor
  · exact emitStates_bound _ _ _ (by simp [h0])
      (all_emissions_bound model frames hN)
  · rw [predict_frames_eq]
    simp only
    rw [all_emissions, emitRun_concat_prev]

/-- C9 witness: one-frame video, zero scores, fresh state. -/
theorem claim_C9_witness :
    initialState.prev_scene = 0 ∧ 1 ≤ ([()] : List Unit).length ∧
    ((∀ s ∈ emitStates
        { initialState with max_frame := ([()] : List Unit).length }
        (all_emissions zeroModel [()]),
      s.prev_scene ≤ ([()] : List Unit).length + 49) ∧
     (predict_frames zeroModel initialState [()]).1.prev_scene =
        ([()] : List Unit).length + 2) :=
  ⟨rfl, by decide, claim_C9_cursor_bound zeroModel initialState [()] rfl (by decide)⟩

/-- C3 counterexample: on the binary sequence `[1, 0]` the extractor
returns `[[1, 1]]`, which leaves index 0 uncovered — no partition of
`0..1`. -/
theorem claim_C3_counterexample :
    predictions_to_scenes_bin [1, 0] = [((1 : Int), 1)] ∧
    ¬ isPartition (predictions_to_scenes_bin [1, 0]) 2 := by
  decide

/-- C3 (amended): for every binary sequence of length `N ≥ 1` that starts
with 0 and has no two consecutive 1s, the intervals returned by
`predictions_to_scenes` cover `0..N-1` in order with no gaps and no
overlaps. (A leading boundary frame, or adjacent boundary frames, leave the
corresponding indices uncovered.) -/
theorem claim_C3_partition (bs : List Nat) (hb : ∀ x ∈ bs, x ≤ 1)
    (hh : bs.head? = some 0)
    (hc : List.Chain' (fun a b => ¬(a = 1 ∧ b = 1)) bs) :
    isPartition (predictions_to_scenes_bin bs) bs.length := by
  rcases bs with _ | ⟨b0, rest⟩
  · cases hh
  have hb0 : b0 = 0 := by simpa using hh
  subst hb0
  have hinv1 : ScanInv 1 (0, 0, ([] : List (Nat × Nat))) := by
    constructor
    · intro _
      show isPartN ([] ++ [(0, 0)]) 1
      decide
    · intro h; exact absurd h (by simp)
  obtain ⟨hlastD, hinv⟩ := scan_partition rest 1 (0, 0, []) (by omega)
    (fun x hx => hb x (List.mem_cons_of_mem _ hx)) hc (by omega) hinv1
  have hfold : (0 :: rest : List Nat).enum.foldl sceneStep (0, 0, []) =
      (List.enumFrom 1 rest).foldl sceneStep (0, 0, []) := by
    rw [List.enum_cons, List.foldl_cons]
    rfl
  have hgl : (0 :: rest : List Nat).getLast? = some (rest.getLastD 0) :=
    getLast?_cons_getLastD rest 0
  have hv : rest.getLastD 0 ≤ 1 := hb _ (List.getLastD_mem_cons rest 0)
  have hlen : (0 :: rest : List Nat).length = 1 + rest.length := by
    simp [Nat.add_comm]
  unfold predictions_to_scenes_bin
  dsimp only
  rw [hfold, hgl, hlen]
  rcases Nat.le_one_iff_eq_zero_or_eq_one.mp hv with hv0 | hv1
  · rw [hv0]
    have h00 : ((some 0 : Option Nat) = some 0) := rfl
    rw [if_pos h00]
    have hP := hinv.1 (by rw [hlastD, hv0])
    rw [show (1 + rest.length) - 1 = rest.length from by omega] at hP
    rw [show 1 + rest.length - 1 = rest.length from by omega]
    rw [if_neg (by simp)]
    exact isPartN_toInt _ _ hP
  · rw [hv1]
    have h10 : ¬((some 1 : Option Nat) = some 0) := by simp
    rw [if_neg h10]
    have hP := hinv.2 (by rw [hlastD, hv1])
    rw [if_neg (isPartN_ne_nil _ _ hP)]
    exact isPartN_toInt _ _ hP

/-- C3 witness: the binary sequence `[0, 1, 0]` satisfies the amended
hypotheses and its intervals `[[0,1],[2,2]]` partition `0..2`. -/
theorem claim_C3_witness :
    (∀ x ∈ ([0, 1, 0] : List Nat), x ≤ 1) ∧
    ([0, 1, 0] : List Nat).head? = some 0 ∧
    List.Chain' (fun a b => ¬(a = 1 ∧ b = 1)) ([0, 1, 0] : List Nat) ∧
    isPartition (predictions_to_scenes_bin [0, 1, 0])
      ([0, 1, 0] : List Nat).length :=
  ⟨by decide, by decide, by decide,
   claim_C3_partition [0, 1, 0] (by decide) (by decide) (by decide)⟩

/-- C10: on the empty prediction sequence the extractor raises no error:
the scan records nothing, the fallback triggers, and the single degenerate
interval `[0, -1]` is returned. -/
theorem claim_C10_empty_input :
    predictions_to_scenes ([] : List ℚ) thresh = [((0 : Int), -1)] := by
  decide

end FVS
